import Mathlib

/-!
Shallow embedding of `src/knowledge_graph/simple_graph.py` (class
`SimpleGraphDatabase`).  Nodes live in an insertion-ordered dictionary
(`id -> record`), relationships in an append-only list.  Property values
are opaque to every operation of the class, so the whole development is
parameterised over a value type `V`.  Python exceptions are modelled by
`Except`; since `from_json` can mutate the store before raising, failing
operations return the store state at raise time alongside the error.
-/

namespace SGDB

/-- Python exception kinds raised by the module: `ValueError` from
`add_relationship` (the spec's ReferenceError), `json.JSONDecodeError`
from `json.loads`, `KeyError` from a missing dictionary key (the latter
two are the spec's FormatError). -/
inductive PyErr where
  | valueError
  | jsonDecodeError
  | keyError (key : String)
  deriving DecidableEq

/-- A node record, as built by `add_node`: the dictionary
`{"id": ..., "labels": ..., "properties": ...}`. -/
structure Node (V : Type) where
  id : String
  labels : List String
  properties : List (String × V)
  deriving DecidableEq

/-- A relationship record, as built by `add_relationship`: the dictionary
`{"source": ..., "target": ..., "type": ..., "properties": ...}`. -/
structure Rel (V : Type) where
  source : String
  target : String
  type : String
  properties : List (String × V)
  deriving DecidableEq

/-- Python dict membership test `k in d` on an association list. -/
def hasKey {α : Type} (m : List (String × α)) (k : String) : Bool :=
  (m.lookup k).isSome

/-- Python dict assignment `d[k] = v`: overwriting an existing key keeps
its position, a fresh key is appended (insertion order). -/
def dictInsert {α : Type} (m : List (String × α)) (k : String) (v : α) :
    List (String × α) :=
  if hasKey m k then m.map (fun kv => if kv.1 = k then (k, v) else kv)
  else m ++ [(k, v)]

/-- The state of a `SimpleGraphDatabase`: `self.nodes` (id -> record,
insertion-ordered) and `self.relationships` (a list). -/
structure Graph (V : Type) where
  nodes : List (String × Node V)
  relationships : List (Rel V)
  deriving DecidableEq

/-- The store built by `__init__`: empty dict, empty list. -/
def emptyGraph (V : Type) : Graph V := ⟨[], []⟩

/-- Method `add_node`: unconditionally writes the record under `node_id`
and returns the id. -/
def add_node {V : Type} (g : Graph V) (node_id : String)
    (labels : List String) (properties : List (String × V)) :
    Graph V × String :=
  ({ g with nodes := dictInsert g.nodes node_id ⟨node_id, labels, properties⟩ },
   node_id)

/-- Method `add_relationship`: raises `ValueError` when source or target
is not a known node id (store untouched, returned with the error),
otherwise appends the relationship and returns `len(relationships) - 1`. -/
def add_relationship {V : Type} (g : Graph V) (source_id target_id rel_type : String)
    (properties : List (String × V)) :
    Except (PyErr × Graph V) (Graph V × Nat) :=
  if ¬ hasKey g.nodes source_id ∨ ¬ hasKey g.nodes target_id then
    .error (.valueError, g)
  else
    let relationship : Rel V := ⟨source_id, target_id, rel_type, properties⟩
    let rels := g.relationships ++ [relationship]
    .ok ({ g with relationships := rels }, rels.length - 1)

/-- Method `get_node`: `self.nodes.get(node_id)`. -/
def get_node {V : Type} (g : Graph V) (node_id : String) : Option (Node V) :=
  g.nodes.lookup node_id

/-- Method `get_relationships`: every stored relationship touching
`node_id`, optionally filtered by type, in insertion order. -/
def get_relationships {V : Type} (g : Graph V) (node_id : String)
    (rel_type : Option String := none) : List (Rel V) :=
  g.relationships.filter (fun rel =>
    if rel.source = node_id ∨ rel.target = node_id then
      match rel_type with
      | none => true
      | some t => rel.type = t
    else false)

/-- One step of the loop body of `query`: the `next_nodes` list collected
from `current_nodes` for one relationship type (a list, with
multiplicity, in relationship insertion order). -/
def queryStep {V : Type} (g : Graph V) (current_nodes : List String)
    (rel_type : String) : List String :=
  current_nodes.flatMap (fun node_id =>
    (g.relationships.filter
      (fun rel => rel.source = node_id ∧ rel.type = rel_type)).map (·.target))

/-- The `for rel_type in relationship_path` loop of `query`, including the
early `break` when the frontier list becomes empty. -/
def queryLoop {V : Type} (g : Graph V) :
    List String → List String → List String
  | [], current_nodes => current_nodes
  | rel_type :: rest, current_nodes =>
    let next_nodes := queryStep g current_nodes rel_type
    if next_nodes = [] then next_nodes else queryLoop g rest next_nodes

/-- Method `query`: run the loop starting from `[start_node_id]`, then
return the records of the surviving ids, skipping ids absent from
`self.nodes`. -/
def query {V : Type} (g : Graph V) (start_node_id : String)
    (relationship_path : List String) : List (Node V) :=
  (queryLoop g relationship_path [start_node_id]).filterMap
    (fun node_id => g.nodes.lookup node_id)

/-- A path step `(node_id, relationship_type, node_id)` as returned by
`find_paths`. -/
abbrev Step : Type := String × String × String

/-- A path: a list of steps. -/
abbrev Path : Type := List Step

/-- The inner recursive function `dfs` of `find_paths`, in functional
form: it returns the list of paths it appends to `all_paths`, in
discovery order (outgoing branches before incoming ones, relationship
insertion order within each).  The extra `fuel` argument only makes the
recursion structural: `find_paths` calls it with
`fuel = max_depth + 1 - depth` at every frame, so `fuel = 0` happens
exactly when `depth > max_depth`, where the Python code also returns
nothing. -/
def dfs {V : Type} (g : Graph V) (target_id : String) (max_depth : Nat) :
    Nat → String → Path → List String → Nat → List Path
  | 0, _, _, _, _ => []
  | fuel + 1, current_id, path, visited, depth =>
    if max_depth < depth then []
    else if current_id = target_id then [path]
    else
      let visited' := current_id :: visited
      (g.relationships.flatMap (fun rel =>
        if rel.source = current_id ∧ rel.target ∉ visited' then
          dfs g target_id max_depth fuel rel.target
            (path ++ [(current_id, rel.type, rel.target)]) visited' (depth + 1)
        else [])) ++
      (g.relationships.flatMap (fun rel =>
        if rel.target = current_id ∧ rel.source ∉ visited' then
          dfs g target_id max_depth fuel rel.source
            (path ++ [(current_id, "INVERSE_" ++ rel.type, rel.source)]) visited' (depth + 1)
        else []))

/-- Method `find_paths`: the `start == end` special case returns the
single synthetic SELF path; otherwise the DFS starts at the start node
with empty path, empty visited set and depth 0. -/
def find_paths {V : Type} (g : Graph V) (start_node_id end_node_id : String)
    (max_depth : Nat := 3) : List Path :=
  if start_node_id = end_node_id then
    [[(start_node_id, "SELF", start_node_id)]]
  else
    dfs g end_node_id max_depth (max_depth + 1) start_node_id [] [] 0

/-- The JSON value produced by `to_json` / consumed by a successful
`from_json`, abstracted from its textual encoding: an object with the
two top-level collections. -/
structure GraphJson (V : Type) where
  nodes : List (Node V)
  relationships : List (Rel V)
  deriving DecidableEq

/-- Method `to_json`: `{"nodes": list(self.nodes.values()), "relationships": self.relationships}`. -/
def to_json {V : Type} (g : Graph V) : GraphJson V :=
  ⟨g.nodes.map (·.2), g.relationships⟩

/-- The outcome of `json.loads` on the input text of `from_json`:
either the text is not valid JSON (`malformed`), or it parses to a
document that has or lacks each of the two top-level collections. -/
inductive DeserInput (V : Type) where
  | malformed
  | doc (nodes : Option (List (Node V))) (relationships : Option (List (Rel V)))

/-- The `self.nodes` dictionary rebuilt by the `for node in graph_dict["nodes"]`
loop of `from_json`: keyed by each record's `"id"` field, starting from `{}`. -/
def buildNodes {V : Type} (ns : List (Node V)) : List (String × Node V) :=
  ns.foldl (fun m node => dictInsert m node.id node) []

/-- Method `from_json`, as a state transformer.  Statement order in the
source matters: `json.loads` raises before any mutation; `self.nodes = {}`
runs before `graph_dict["nodes"]` is read, so a missing `"nodes"` key
raises `KeyError` with the node dictionary already cleared; a missing
`"relationships"` key raises with the node dictionary already rebuilt.
On error the store state at raise time is returned with the error. -/
def from_json {V : Type} (g : Graph V) (input : DeserInput V) :
    Except (PyErr × Graph V) (Graph V) :=
  match input with
  | .malformed => .error (.jsonDecodeError, g)
  | .doc none _ => .error (.keyError "nodes", { g with nodes := [] })
  | .doc (some ns) none =>
      .error (.keyError "relationships", { g with nodes := buildNodes ns })
  | .doc (some ns) (some rs) => .ok ⟨buildNodes ns, rs⟩

/-- Parsing the text that `to_json` produced always yields the document
with both collections present: this is `json.loads` applied to a
`to_json` output. -/
def parsedOf {V : Type} (j : GraphJson V) : DeserInput V :=
  .doc (some j.nodes) (some j.relationships)

/-- Store well-formedness, maintained by every constructor of stores in
the source (`__init__`, `add_node`, `from_json`): node-dictionary keys
are distinct and each record's `"id"` field equals its key. -/
def WF {V : Type} (g : Graph V) : Prop :=
  (g.nodes.map (·.1)).Nodup ∧ ∀ kv ∈ g.nodes, kv.2.id = kv.1

instance {V : Type} [DecidableEq V] (g : Graph V) : Decidable (WF g) := by
  unfold WF; infer_instance

/-- No relationship dangles: both endpoints of every stored relationship
are known node ids.  `add_relationship` enforces this; `from_json` does
not. -/
def NoDangling {V : Type} (g : Graph V) : Prop :=
  ∀ rel ∈ g.relationships, hasKey g.nodes rel.source ∧ hasKey g.nodes rel.target

instance {V : Type} [DecidableEq V] (g : Graph V) : Decidable (NoDangling g) := by
  unfold NoDangling; infer_instance

/-- The sequence of node ids along a path's `(from, label, to)` triples:
each step's `from` id, then the final step's `to` id.  For the chain-shaped
paths produced by `find_paths` this is exactly the sequence of visited
nodes. -/
def pathNodes (p : Path) : List String :=
  match p.getLast? with
  | none => []
  | some (_, _, b) => p.map (fun s => s.1) ++ [b]

/-- Modelled from the spec's words (§4.3), for comparison with the code:
one frontier advance as a SET of node ids — "the set of all targets
reachable via an outgoing relationship of the current step's required
type, from any node currently in the frontier". -/
def querySpecStep {V : Type} (g : Graph V) (frontier : Finset String)
    (rel_type : String) : Finset String :=
  frontier.biUnion (fun node_id =>
    ((g.relationships.filter
      (fun rel => rel.source = node_id ∧ rel.type = rel_type)).map (·.target)).toFinset)

/-- Sample store: nodes A, B and the single relationship A–OWNS→B. -/
def gAB : Graph Nat :=
  ⟨[("A", ⟨"A", [], []⟩), ("B", ⟨"B", [], []⟩)], [⟨"A", "B", "OWNS", []⟩]⟩

/-- Sample store: nodes A, B, C with A–FILED→B and B–COVERED_BY→C. -/
def gABC : Graph Nat :=
  ⟨[("A", ⟨"A", [], []⟩), ("B", ⟨"B", [], []⟩), ("C", ⟨"C", [], []⟩)],
   [⟨"A", "B", "FILED", []⟩, ⟨"B", "C", "COVERED_BY", []⟩]⟩

/-- Sample store: nodes A, B and two parallel relationships A–T→B (the
store is a multigraph, so `add_relationship` admits this). -/
def gDup : Graph Nat :=
  ⟨[("A", ⟨"A", [], []⟩), ("B", ⟨"B", [], []⟩)],
   [⟨"A", "B", "T", []⟩, ⟨"A", "B", "T", []⟩]⟩

/-- C6: for every store (the start node need not exist), every node id n
and every max depth k, `find_paths(n, n, k)` returns exactly one path,
the single synthetic (n, "SELF", n) step, with no edge traversal. -/
theorem find_paths_self {V : Type} (g : Graph V) (n : String) (k : Nat) :
    find_paths g n n k = [[(n, "SELF", n)]] := by
  simp [find_paths]

/-- C8: with nodes A, B and the single relationship A–OWNS→B,
`find_paths(A, B, 1)` includes the direct one-step path, and
`find_paths(B, A, 1)` finds exactly one path, the single
INVERSE_OWNS-labeled step. -/
theorem find_paths_bidirectional :
    [("A", "OWNS", "B")] ∈ find_paths gAB "A" "B" 1 ∧
    find_paths gAB "B" "A" 1 = [[("B", "INVERSE_OWNS", "A")]] := by
  decide

/-- C10: `from_json` performs no referential-integrity validation: on a
well-formed document whose relationship names endpoints absent from the
node collection, it succeeds and leaves the store with a dangling
relationship, breaking the no-dangling invariant; `add_relationship`,
by contrast, preserves that invariant whenever it succeeds. -/
theorem from_json_no_integrity_check :
    (from_json (emptyGraph Nat) (.doc (some []) (some [⟨"X", "Y", "T", []⟩]))
      = .ok ⟨[], [⟨"X", "Y", "T", []⟩]⟩) ∧
    ¬ NoDangling (⟨[], [⟨"X", "Y", "T", []⟩]⟩ : Graph Nat) ∧
    (∀ (g : Graph Nat) (s t ty : String) (props : List (String × Nat)) (g' : Graph Nat) (i : Nat),
      add_relationship g s t ty props = .ok (g', i) → NoDangling g → NoDangling g') := by
  refine ⟨rfl, by decide, ?_⟩
  intro g s t ty props g' i hok hnd
  unfold add_relationship at hok
  split at hok
  · exact absurd hok (by simp)
  · rename_i hcond
    simp only [Except.ok.injEq, Prod.mk.injEq] at hok
    obtain ⟨hg', _⟩ := hok
    push_neg at hcond
    intro rel hrel
    rw [← hg'] at hrel
    simp only at hrel
    rw [List.mem_append] at hrel
    rcases hrel with h | h
    · have := hnd rel h
      rw [← hg']
      exact this
    · simp only [List.mem_singleton] at h
      subst h
      rw [← hg']
      exact ⟨hcond.1, hcond.2⟩

/-- C10 witness: the invariant-preservation conjunct applied at a
concrete successful insertion. -/
theorem from_json_no_integrity_check_witness :
    NoDangling ({ gAB with relationships := gAB.relationships ++ [⟨"A", "B", "HOLDS", []⟩] }) :=
  from_json_no_integrity_check.2.2 gAB "A" "B" "HOLDS" [] _ 1 (by rfl) (by decide)

/-- C3 counterexample: with two parallel relationships A–T→B, the final
frontier is the list [B, B], so `query` returns the same node record
twice — the frontier is a list with multiplicity, not a set. -/
theorem query_duplicate_records_cex :
    query gDup "A" ["T"] = [⟨"B", [], []⟩, ⟨"B", [], []⟩] ∧
    ¬ (query gDup "A" ["T"]).Nodup := by
  decide

/-- C4 counterexample: on the well-formed input `{}` (missing the
"nodes" collection) `from_json` fails, but only after clearing the node
dictionary: the store at raise time differs from the store before the
call. -/
theorem from_json_missing_nodes_mutates_cex :
    from_json gAB (.doc none none) = .error (.keyError "nodes", { gAB with nodes := [] }) ∧
    ({ gAB with nodes := [] } : Graph Nat) ≠ gAB := by
  exact ⟨rfl, by decide⟩

/-- C5 counterexample: when start = end, the returned synthetic SELF
path's node-id sequence is [n, n], which visits node n twice. -/
theorem find_paths_self_path_not_simple_cex :
    [("A", "SELF", "A")] ∈ find_paths (emptyGraph Nat) "A" "A" 3 ∧
    ¬ (pathNodes [("A", "SELF", "A")]).Nodup := by
  decide

/-- C4 amended: `from_json` fails exactly when the text is malformed or
either top-level collection is missing; on malformed text it fails
before any state change, but a missing "nodes" collection leaves the
node dictionary cleared, and a missing "relationships" collection leaves
the node dictionary already replaced (relationships unchanged in both). -/
theorem from_json_failure_spec {V : Type} (g : Graph V) (input : DeserInput V) :
    (from_json g .malformed = .error (.jsonDecodeError, g)) ∧
    (∀ rs, from_json g (.doc none rs) = .error (.keyError "nodes", { g with nodes := [] })) ∧
    (∀ ns, from_json g (.doc (some ns) none)
      = .error (.keyError "relationships", { g with nodes := buildNodes ns })) ∧
    ((∃ p, from_json g input = .error p) ↔
      input = .malformed ∨ (∃ rs, input = .doc none rs) ∨ (∃ ns, input = .doc (some ns) none)) := by
  refine ⟨rfl, fun rs => rfl, fun ns => rfl, ?_⟩
  cases input with
  | malformed => simp [from_json]
  | doc ns rs =>
    cases ns with
    | none => simp [from_json]
    | some ns =>
      cases rs with
      | none => simp [from_json]
      | some rs => simp [from_json]

/-- C2: `add_relationship` fails if and only if source or target is not
a known node id; on failure the error is the ValueError kind and the
store at raise time is unchanged; on success exactly the new
relationship is appended, the node dictionary is untouched, and the
returned index is the new length minus one, i.e. the zero-based position
of the appended relationship. -/
theorem add_relationship_spec {V : Type} (g : Graph V) (s t ty : String)
    (props : List (String × V)) :
    ((∃ p, add_relationship g s t ty props = .error p) ↔
      (¬ hasKey g.nodes s ∨ ¬ hasKey g.nodes t)) ∧
    (∀ e g', add_relationship g s t ty props = .error (e, g') →
      e = .valueError ∧ g' = g) ∧
    (∀ g' i, add_relationship g s t ty props = .ok (g', i) →
      g'.relationships = g.relationships ++ [⟨s, t, ty, props⟩] ∧
      g'.nodes = g.nodes ∧ i = g'.relationships.length - 1 ∧
      i = g.relationships.length) := by
  unfold add_relationship
  by_cases hc : ¬ hasKey g.nodes s ∨ ¬ hasKey g.nodes t
  · rw [if_pos hc]
    refine ⟨⟨fun _ => hc, fun _ => ⟨_, rfl⟩⟩, ?_, ?_⟩
    · intro e g' he
      simp only [Except.error.injEq, Prod.mk.injEq] at he
      exact ⟨he.1.symm, he.2.symm⟩
    · intro g' i h
      exact absurd h (by simp)
  · rw [if_neg hc]
    refine ⟨⟨?_, fun h => absurd h hc⟩, ?_, ?_⟩
    · rintro ⟨p, hp⟩
      exact absurd hp (by simp)
    · intro e g' he
      exact absurd he (by simp)
    · intro g' i h
      simp only [Except.ok.injEq, Prod.mk.injEq] at h
      obtain ⟨hg', hi⟩ := h
      subst hg'
      subst hi
      refine ⟨rfl, rfl, by simp, by simp⟩

/-- C2 witness: the characterization applied at a concrete failing call
(unknown target Z on store gAB) and a concrete successful call. -/
theorem add_relationship_spec_witness :
    (∃ p, add_relationship gAB "A" "Z" "T" ([] : List (String × Nat)) = .error p) ∧
    (∀ g' i, add_relationship gAB "A" "B" "HOLDS" ([] : List (String × Nat)) = .ok (g', i) →
      g'.relationships = gAB.relationships ++ [⟨"A", "B", "HOLDS", []⟩] ∧
      g'.nodes = gAB.nodes ∧ i = g'.relationships.length - 1 ∧
      i = gAB.relationships.length) :=
  ⟨(add_relationship_spec gAB "A" "Z" "T" []).1.mpr (Or.inr (by decide)),
   (add_relationship_spec gAB "A" "B" "HOLDS" []).2.2⟩

lemma hasKey_iff {α : Type} (m : List (String × α)) (k : String) :
    hasKey m k = true ↔ k ∈ m.map (·.1) := by
  induction m with
  | nil => simp [hasKey, List.lookup]
  | cons kv rest ih =>
    by_cases h : kv.1 = k
    · simp [hasKey, List.lookup, h]
    · have hbeq : (k == kv.1) = false := by simp [Ne.symm h]
      have hstep : hasKey (kv :: rest) k = hasKey rest k := by
        simp [hasKey, List.lookup, hbeq]
      rw [hstep, ih]
      simp [Ne.symm h]

lemma dictInsert_fresh {α : Type} (m : List (String × α)) (k : String) (v : α)
    (h : k ∉ m.map (·.1)) : dictInsert m k v = m ++ [(k, v)] := by
  rw [dictInsert, if_neg]
  rw [Bool.not_eq_true, ← Bool.not_eq_true, hasKey_iff]
  exact h

lemma buildNodes_go {V : Type} (ns : List (Node V)) :
    ∀ m : List (String × Node V),
      (m.map (·.1) ++ ns.map Node.id).Nodup →
      ns.foldl (fun m node => dictInsert m node.id node) m
        = m ++ ns.map (fun n => (n.id, n)) := by
  induction ns with
  | nil => intro m _; simp
  | cons n rest ih =>
    intro m hnd
    have hfresh : n.id ∉ m.map (·.1) := by
      intro hmem
      rw [List.nodup_append] at hnd
      exact hnd.2.2 hmem (by simp)
    rw [List.foldl_cons, dictInsert_fresh m n.id n hfresh]
    rw [ih (m ++ [(n.id, n)]) (by simpa [List.append_assoc] using hnd)]
    simp

lemma buildNodes_of_nodup {V : Type} (ns : List (Node V))
    (h : (ns.map Node.id).Nodup) :
    buildNodes ns = ns.map (fun n => (n.id, n)) := by
  rw [buildNodes, buildNodes_go ns [] (by simpa using h)]
  simp

/-- C1: serialization is lossless.  For every well-formed store G (node
keys distinct, each record's id equal to its key — the invariant every
store constructed by the class satisfies) and any prior store state h,
deserializing the serialized form of G yields exactly G's node
dictionary and relationship sequence, and hence re-serializing gives the
same serialized value. -/
theorem serialize_roundtrip {V : Type} (g h : Graph V) (hwf : WF g) :
    from_json h (parsedOf (to_json g)) = .ok g ∧
    (∀ g', from_json h (parsedOf (to_json g)) = .ok g' → to_json g' = to_json g) := by
  have hids : (g.nodes.map (·.2)).map Node.id = g.nodes.map (·.1) := by
    rw [List.map_map]
    exact List.map_congr_left (fun kv hkv => hwf.2 kv hkv)
  have hbuild : buildNodes (g.nodes.map (·.2)) = g.nodes := by
    rw [buildNodes_of_nodup _ (by rw [hids]; exact hwf.1)]
    rw [List.map_map]
    calc g.nodes.map (fun kv => (kv.2.id, kv.2))
        = g.nodes.map (fun kv => (kv.1, kv.2)) :=
          List.map_congr_left (fun kv hkv => by rw [hwf.2 kv hkv])
      _ = g.nodes := by simp
  have hmain : from_json h (parsedOf (to_json g)) = .ok g := by
    simp only [from_json, parsedOf, to_json, hbuild]
  exact ⟨hmain, fun g' hg' => by rw [hmain] at hg'; simp only [Except.ok.injEq] at hg'; rw [hg']⟩

/-- C1 witness: the round trip evaluated on the concrete three-node
store gABC, deserializing over a previously empty store. -/
theorem serialize_roundtrip_witness :
    from_json (emptyGraph Nat) (parsedOf (to_json gABC)) = .ok gABC :=
  (serialize_roundtrip gABC (emptyGraph Nat) (by decide)).1

lemma queryStep_toFinset {V : Type} (g : Graph V) (cur : List String) (rt : String) :
    (queryStep g cur rt).toFinset = querySpecStep g cur.toFinset rt := by
  ext x
  simp [queryStep, querySpecStep, List.mem_flatMap]

lemma querySpecStep_empty {V : Type} (g : Graph V) (rt : String) :
    querySpecStep g ∅ rt = ∅ := by
  simp [querySpecStep]

lemma foldl_querySpecStep_empty {V : Type} (g : Graph V) (p : List String) :
    p.foldl (querySpecStep g) ∅ = ∅ := by
  induction p with
  | nil => rfl
  | cons rt rest ih => rw [List.foldl_cons, querySpecStep_empty]; exact ih

lemma queryLoop_toFinset {V : Type} (g : Graph V) (p : List String) :
    ∀ cur : List String,
      (queryLoop g p cur).toFinset = p.foldl (querySpecStep g) cur.toFinset := by
  induction p with
  | nil => intro cur; rfl
  | cons rt rest ih =>
    intro cur
    rw [queryLoop, List.foldl_cons, ← queryStep_toFinset]
    by_cases hnil : queryStep g cur rt = []
    · rw [if_pos hnil, hnil]
      simp only [List.toFinset_nil]
      rw [foldl_querySpecStep_empty]
    · rw [if_neg hnil]
      exact ih (queryStep g cur rt)

/-- C3 amended: `query` advances a frontier LIST of node ids (with
multiplicity), not a set — as a set of ids each frontier agrees with
the spec's set-based description — stops early when the frontier becomes
empty, and returns the node records of the final frontier skipping ids
absent from the store; the returned list can contain the same node
record more than once.  The spec's concrete examples hold: on
A–FILED→B, B–COVERED_BY→C, query(A, [FILED, COVERED_BY]) = [C] and
query(A, [COVERED_BY]) = []. -/
theorem query_frontier_spec {V : Type} (g : Graph V) (start : String)
    (p : List String) :
    (queryLoop g p [start]).toFinset = p.foldl (querySpecStep g) {start} ∧
    query g start p
      = (queryLoop g p [start]).filterMap (fun node_id => g.nodes.lookup node_id) ∧
    query gABC "A" ["FILED", "COVERED_BY"] = [⟨"C", [], []⟩] ∧
    query gABC "A" ["COVERED_BY"] = [] := by
  refine ⟨?_, rfl, by decide, by decide⟩
  rw [queryLoop_toFinset]
  simp

lemma mem_dfs_succ {V : Type} {g : Graph V} {t : String} {m fuel : Nat}
    {c : String} {path : Path} {vis : List String} {d : Nat} {p : Path}
    (hp : p ∈ dfs g t m (fuel + 1) c path vis d) :
    ¬ m < d ∧
    ((c = t ∧ p = path) ∨
     (c ≠ t ∧
      ((∃ rel ∈ g.relationships, rel.source = c ∧ rel.target ∉ c :: vis ∧
         p ∈ dfs g t m fuel rel.target
           (path ++ [(c, rel.type, rel.target)]) (c :: vis) (d + 1)) ∨
       (∃ rel ∈ g.relationships, rel.target = c ∧ rel.source ∉ c :: vis ∧
         p ∈ dfs g t m fuel rel.source
           (path ++ [(c, "INVERSE_" ++ rel.type, rel.source)]) (c :: vis) (d + 1))))) := by
  simp only [dfs] at hp
  by_cases hm : m < d
  · rw [if_pos hm] at hp
    simp at hp
  · refine ⟨hm, ?_⟩
    rw [if_neg hm] at hp
    by_cases hct : c = t
    · rw [if_pos hct, List.mem_singleton] at hp
      exact Or.inl ⟨hct, hp⟩
    · rw [if_neg hct, List.mem_append] at hp
      refine Or.inr ⟨hct, ?_⟩
      rcases hp with hp | hp
      · left
        rw [List.mem_flatMap] at hp
        obtain ⟨rel, hrel, hprel⟩ := hp
        split at hprel
        · rename_i hcond
          exact ⟨rel, hrel, hcond.1, hcond.2, hprel⟩
        · simp at hprel
      · right
        rw [List.mem_flatMap] at hp
        obtain ⟨rel, hrel, hprel⟩ := hp
        split at hprel
        · rename_i hcond
          exact ⟨rel, hrel, hcond.1, hcond.2, hprel⟩
        · simp at hprel

lemma dfs_length_le {V : Type} (g : Graph V) (t : String) (m : Nat) :
    ∀ (fuel : Nat) (c : String) (path : Path) (vis : List String) (d : Nat),
      path.length = d →
      ∀ p ∈ dfs g t m fuel c path vis d, p.length ≤ m := by
  intro fuel
  induction fuel with
  | zero =>
    intro c path vis d _ p hp
    simp [dfs] at hp
  | succ fuel ih =>
    intro c path vis d hlen p hp
    obtain ⟨hm, hcase⟩ := mem_dfs_succ hp
    rcases hcase with ⟨_, hpp⟩ | ⟨_, hbr⟩
    · subst hpp
      omega
    · rcases hbr with ⟨rel, _, _, _, hchild⟩ | ⟨rel, _, _, _, hchild⟩ <;>
        exact ih _ _ _ _ (by simp [hlen]) p hchild

lemma pathNodes_concat (path : Path) (a ty b : String) :
    pathNodes (path ++ [(a, ty, b)]) = (path.map (fun s => s.1) ++ [a]) ++ [b] := by
  rw [pathNodes, List.getLast?_concat]
  simp

lemma dfs_pathNodes_nodup {V : Type} (g : Graph V) (t : String) (m : Nat) :
    ∀ (fuel : Nat) (c : String) (path : Path) (vis : List String) (d : Nat),
      ((path.map (fun s => s.1)) ++ [c]).Nodup →
      (∀ x ∈ path.map (fun s => s.1), x ∈ vis) →
      (path = [] ∨ ∃ a ty, path.getLast? = some (a, ty, c)) →
      ∀ p ∈ dfs g t m fuel c path vis d, (pathNodes p).Nodup := by
  intro fuel
  induction fuel with
  | zero =>
    intro c path vis d _ _ _ p hp
    simp [dfs] at hp
  | succ fuel ih =>
    intro c path vis d h1 h2 h3 p hp
    obtain ⟨hm, hcase⟩ := mem_dfs_succ hp
    rcases hcase with ⟨hct, hpp⟩ | ⟨hct, hbr⟩
    · rw [hpp]
      rcases h3 with hnil | ⟨a, ty, hlast⟩
      · rw [hnil]
        simp [pathNodes]
      · have heq : pathNodes path = path.map (fun s => s.1) ++ [c] := by
          rw [pathNodes, hlast]
        rw [heq]
        exact h1
    · have hstep : ∀ (nxt ty : String), nxt ∉ c :: vis →
          (((path ++ [(c, ty, nxt)]).map (fun s => s.1)) ++ [nxt]).Nodup ∧
          (∀ x ∈ (path ++ [(c, ty, nxt)]).map (fun s => s.1), x ∈ c :: vis) ∧
          ((path ++ [(c, ty, nxt)] : Path) = [] ∨
            ∃ a ty', (path ++ [(c, ty, nxt)]).getLast? = some (a, ty', nxt)) := by
        intro nxt ty hnv
        have hfr : (path ++ [(c, ty, nxt)]).map (fun s => s.1)
            = path.map (fun s => s.1) ++ [c] := by simp
        refine ⟨?_, ?_, Or.inr ⟨c, ty, by rw [List.getLast?_concat]⟩⟩
        · rw [hfr, List.nodup_append]
          have hnt : nxt ∉ path.map (fun s => s.1) ++ [c] := by
            rw [List.mem_append, List.mem_singleton]
            rintro (hmem | hmem)
            · exact hnv (List.mem_cons_of_mem _ (h2 _ hmem))
            · exact hnv (by rw [hmem]; exact List.mem_cons_self _ _)
          exact ⟨h1, List.nodup_singleton _,
            by simpa [List.disjoint_singleton] using hnt⟩
        · intro x hx
          rw [hfr, List.mem_append, List.mem_singleton] at hx
          rcases hx with hx | hx
          · exact List.mem_cons_of_mem _ (h2 x hx)
          · rw [hx]
            exact List.mem_cons_self _ _
      rcases hbr with ⟨rel, hrel, hsrc, hnv, hchild⟩ | ⟨rel, hrel, htgt, hnv, hchild⟩
      · obtain ⟨ha, hb, hc⟩ := hstep rel.target rel.type hnv
        exact ih rel.target _ (c :: vis) (d + 1) ha hb hc p hchild
      · obtain ⟨ha, hb, hc⟩ := hstep rel.source ("INVERSE_" ++ rel.type) hnv
        exact ih rel.source _ (c :: vis) (d + 1) ha hb hc p hchild

/-- C5 amended: for distinct start and end ids, every path returned by
`find_paths` is simple — the sequence of node ids along its triples is
duplicate-free (the excluded start = end case returns the synthetic SELF
path, whose node sequence [n, n] repeats n). -/
theorem find_paths_simple {V : Type} (g : Graph V) (a b : String) (k : Nat)
    (hab : a ≠ b) :
    ∀ p ∈ find_paths g a b k, (pathNodes p).Nodup := by
  intro p hp
  rw [find_paths, if_neg hab] at hp
  exact dfs_pathNodes_nodup g b k (k + 1) a [] [] 0 (by simp) (by simp)
    (Or.inl rfl) p hp

/-- C5 witness: the simple-path theorem applied to the concrete store
gAB, start A, end B, where the direct OWNS step is a returned path. -/
theorem find_paths_simple_witness :
    (pathNodes [("A", "OWNS", "B")]).Nodup :=
  find_paths_simple gAB "A" "B" 1 (by decide) [("A", "OWNS", "B")] (by decide)

lemma dfs_ends_at_target {V : Type} (g : Graph V) (t : String) (m : Nat) :
    ∀ (fuel : Nat) (c : String) (path : Path) (vis : List String) (d : Nat),
      ∀ p ∈ dfs g t m fuel c path vis d,
        (p = path ∧ c = t) ∨ ∃ a ty, p.getLast? = some (a, ty, t) := by
  intro fuel
  induction fuel with
  | zero =>
    intro c path vis d p hp
    simp [dfs] at hp
  | succ fuel ih =>
    intro c path vis d p hp
    obtain ⟨hm, hcase⟩ := mem_dfs_succ hp
    rcases hcase with ⟨hct, hpp⟩ | ⟨hct, hbr⟩
    · exact Or.inl ⟨hpp, hct⟩
    · rcases hbr with ⟨rel, _, _, _, hchild⟩ | ⟨rel, _, _, _, hchild⟩
      · rcases ih rel.target _ (c :: vis) (d + 1) p hchild with ⟨hpp, htgt⟩ | hend
        · exact Or.inr ⟨c, rel.type, by rw [hpp, List.getLast?_concat, htgt]⟩
        · exact Or.inr hend
      · rcases ih rel.source _ (c :: vis) (d + 1) p hchild with ⟨hpp, htgt⟩ | hend
        · exact Or.inr ⟨c, "INVERSE_" ++ rel.type,
            by rw [hpp, List.getLast?_concat, htgt]⟩
        · exact Or.inr hend

/-- C7: for distinct start and end ids every returned path has at most
maxDepth steps and is a complete path ending at the end node (paths are
pruned by the bound, never truncated), and a zero depth budget returns
no paths at all. -/
theorem find_paths_depth_bound {V : Type} (g : Graph V) (a b : String) (k : Nat)
    (hab : a ≠ b) :
    (∀ p ∈ find_paths g a b k, p.length ≤ k) ∧
    (∀ p ∈ find_paths g a b k, ∃ s ty, p.getLast? = some (s, ty, b)) ∧
    find_paths g a b 0 = [] := by
  refine ⟨?_, ?_, ?_⟩
  · intro p hp
    rw [find_paths, if_neg hab] at hp
    exact dfs_length_le g b k (k + 1) a [] [] 0 rfl p hp
  · intro p hp
    rw [find_paths, if_neg hab] at hp
    rcases dfs_ends_at_target g b k (k + 1) a [] [] 0 p hp with
      ⟨_, hct⟩ | hend
    · exact absurd hct hab
    · exact hend
  · rw [find_paths, if_neg hab, List.eq_nil_iff_forall_not_mem]
    intro p hp
    obtain ⟨hm, hcase⟩ := mem_dfs_succ hp
    rcases hcase with ⟨hct, _⟩ | ⟨_, hbr⟩
    · exact hab hct
    · rcases hbr with ⟨rel, _, _, _, hchild⟩ | ⟨rel, _, _, _, hchild⟩ <;>
        simp [dfs] at hchild

/-- C7 witness: the bound applied to the concrete store gAB with
maxDepth 1, on the returned direct path. -/
theorem find_paths_depth_bound_witness :
    ([("A", "OWNS", "B")] : Path).length ≤ 1 ∧
    (∃ s ty, ([("A", "OWNS", "B")] : Path).getLast? = some (s, ty, "B")) ∧
    find_paths gAB "A" "B" 0 = [] :=
  ⟨(find_paths_depth_bound gAB "A" "B" 1 (by decide)).1 _ (by decide),
   (find_paths_depth_bound gAB "A" "B" 1 (by decide)).2.1 _ (by decide),
   (find_paths_depth_bound gAB "A" "B" 1 (by decide)).2.2⟩

lemma lookup_eq_none_of_hasKey_false {α : Type} (m : List (String × α))
    (k : String) (h : hasKey m k = false) : m.lookup k = none := by
  rw [hasKey] at h
  cases hm : m.lookup k with
  | none => rfl
  | some v => rw [hm] at h; simp at h

lemma dfs_eq_nil_of_no_rels_at_start {V : Type} (g : Graph V) (t : String)
    (m fuel : Nat) (c : String) (path : Path) (vis : List String) (d : Nat)
    (hct : c ≠ t)
    (hno : ∀ rel ∈ g.relationships, rel.source ≠ c ∧ rel.target ≠ c) :
    dfs g t m fuel c path vis d = [] := by
  cases fuel with
  | zero => simp [dfs]
  | succ fuel =>
    rw [List.eq_nil_iff_forall_not_mem]
    intro p hp
    obtain ⟨hm, hcase⟩ := mem_dfs_succ hp
    rcases hcase with ⟨h, _⟩ | ⟨_, hbr⟩
    · exact hct h
    · rcases hbr with ⟨rel, hrel, hsrc, _, _⟩ | ⟨rel, hrel, htgt, _, _⟩
      · exact (hno rel hrel).1 hsrc
      · exact (hno rel hrel).2 htgt

lemma dfs_eq_nil_of_target_not_endpoint {V : Type} (g : Graph V) (t : String)
    (m : Nat)
    (hno : ∀ rel ∈ g.relationships, rel.source ≠ t ∧ rel.target ≠ t) :
    ∀ (fuel : Nat) (c : String) (path : Path) (vis : List String) (d : Nat),
      c ≠ t → dfs g t m fuel c path vis d = [] := by
  intro fuel
  induction fuel with
  | zero => intro c path vis d _; simp [dfs]
  | succ fuel ih =>
    intro c path vis d hct
    rw [List.eq_nil_iff_forall_not_mem]
    intro p hp
    obtain ⟨hm, hcase⟩ := mem_dfs_succ hp
    rcases hcase with ⟨h, _⟩ | ⟨_, hbr⟩
    · exact hct h
    · rcases hbr with ⟨rel, hrel, _, _, hchild⟩ | ⟨rel, hrel, _, _, hchild⟩
      · rw [ih rel.target _ _ _ (hno rel hrel).2] at hchild
        simp at hchild
      · rw [ih rel.source _ _ _ (hno rel hrel).1] at hchild
        simp at hchild

/-- C9: the query operations are total functions (they are defined for
every store and every input in this embedding, raising nothing), and for
a node id absent from the store they yield the absent/empty results:
`get_node` returns absent, `get_relationships` returns the empty list,
`query` returns the empty node list, and `find_paths` in either
direction discovers no paths (given the no-dangling invariant that every
store populated through `add_relationship` satisfies). -/
theorem query_ops_total {V : Type} (g : Graph V) (x b : String)
    (rt : Option String) (p : List String) (k : Nat)
    (hx : hasKey g.nodes x = false) (hnd : NoDangling g) (hxb : x ≠ b) :
    get_node g x = none ∧
    get_relationships g x rt = [] ∧
    query g x p = [] ∧
    find_paths g x b k = [] ∧ find_paths g b x k = [] := by
  have hlook : g.nodes.lookup x = none := lookup_eq_none_of_hasKey_false _ _ hx
  have hnox : ∀ rel ∈ g.relationships, rel.source ≠ x ∧ rel.target ≠ x := by
    intro rel hrel
    obtain ⟨hs, ht⟩ := hnd rel hrel
    constructor
    · intro he; rw [he] at hs; rw [hs] at hx; exact absurd hx (by simp)
    · intro he; rw [he] at ht; rw [ht] at hx; exact absurd hx (by simp)
  refine ⟨hlook, ?_, ?_, ?_, ?_⟩
  · rw [get_relationships, List.filter_eq_nil_iff]
    intro rel hrel
    have := hnox rel hrel
    simp only [Bool.not_eq_true]
    rw [if_neg]
    rintro (h | h)
    · exact this.1 h
    · exact this.2 h
  · cases p with
    | nil =>
      rw [query, queryLoop]
      simp [hlook]
    | cons rt0 rest =>
      have hstep : queryStep g [x] rt0 = [] := by
        rw [queryStep]
        simp only [List.flatMap_cons, List.flatMap_nil, List.append_nil]
        rw [List.map_eq_nil_iff, List.filter_eq_nil_iff]
        intro rel hrel
        simp only [decide_eq_true_eq, not_and]
        intro hsrc
        exact absurd hsrc (hnox rel hrel).1
      rw [query, queryLoop]
      simp only [hstep, if_pos]
      simp
  · rw [find_paths, if_neg hxb]
    exact dfs_eq_nil_of_no_rels_at_start g b k (k + 1) x [] [] 0 hxb hnox
  · rw [find_paths, if_neg (Ne.symm hxb)]
    exact dfs_eq_nil_of_target_not_endpoint g x k hnox (k + 1) b [] [] 0
      (Ne.symm hxb)

/-- C9 witness: the totality theorem applied to the concrete store gAB
and the unknown node id Z. -/
theorem query_ops_total_witness :
    get_node gAB "Z" = none ∧
    get_relationships gAB "Z" none = [] ∧
    query gAB "Z" ["T"] = [] ∧
    find_paths gAB "Z" "A" 2 = [] ∧ find_paths gAB "A" "Z" 2 = [] :=
  query_ops_total gAB "Z" "A" none ["T"] 2 (by decide) (by decide) (by decide)

end SGDB
